import Mathlib

/-!
Shallow embedding of `src/whitelist.py` (mc_whitelist_maintain).

The Python module maintains a whitelist of usernames.  Its core is the class
`Whitelist` (an in-memory `dict` from name to uuid, mirrored to a JSON file),
the static method `Whitelist.id_to_uuid` (inserts dashes into a 32-character
compact identifier), the function `send_command_to_mcrcon` (dispatches one
textual command over an opaque remote-console client), and a `click` command
surface.

Python `dict`s are modelled as insertion-ordered association lists whose keys
are unique (the operations below preserve that invariant, as `dict` does).
JSON values are modelled by an inductive `Json`; the textual
serialisation layer (`json.dump` / `json.load` of the same data) is taken to
be the identity on `Json` values.  File and console side effects are made
explicit: the backing file's parsed content is a `Json` field of the state,
and `print` / `save` occurrences are recorded in an event list.
-/

/-- JSON values as handled by Python's `json` module. -/
inductive Json where
  | null
  | bool (b : Bool)
  | num (n : Int)
  | str (s : String)
  | arr (items : List Json)
  | obj (fields : List (String × Json))

/-- Values Python can use as `dict` keys (hashable JSON scalars).  Lists and
objects are unhashable and raise `TypeError` when used as keys. -/
inductive PyKey where
  | null
  | bool (b : Bool)
  | num (n : Int)
  | str (s : String)
deriving DecidableEq

/-- Python `d[k] = v` on a `dict` modelled as an association list: if the key
is present (a dict holds it at most once) its value is replaced in place
(position kept), otherwise the pair is appended at the end (insertion
order). -/
def dictInsert {α β : Type} [DecidableEq α] (m : List (α × β)) (k : α) (v : β) :
    List (α × β) :=
  match m with
  | [] => [(k, v)]
  | p :: rest => if p.1 = k then (k, v) :: rest else p :: dictInsert rest k v

/-- Python `d[k]` / `d.get(k)` on a `dict` modelled as an association list:
value of the (unique) entry with key `k`, if any. -/
def dictLookup {α β : Type} [DecidableEq α] (m : List (α × β)) (k : α) :
    Option β :=
  match m with
  | [] => none
  | p :: rest => if p.1 = k then some p.2 else dictLookup rest k

/-- Python `d.pop(k)` on a `dict` holding the key: drop the (unique) entry
with key `k`, keeping the order of the others. -/
def dictRemove {α β : Type} [DecidableEq α] (m : List (α × β)) (k : α) :
    List (α × β) :=
  match m with
  | [] => []
  | p :: rest => if p.1 = k then rest else p :: dictRemove rest k

/-- Python `d.update(u)`: insert every pair of `u`, in order, into `d`. -/
def dictUpdate {α β : Type} [DecidableEq α] (m u : List (α × β)) :
    List (α × β) :=
  u.foldl (fun acc p => dictInsert acc p.1 p.2) m

/-- Observable side effects of the store operations: a `print`ed message, or a
call to `save()` (which rewrites the backing file). -/
inductive Event where
  | msg (s : String)
  | save
deriving DecidableEq

/-- State of a `Whitelist` object: the `_usernames` dict (name → uuid), the
`__container` list, and the parsed content of the backing JSON file. -/
structure Whitelist where
  usernames : List (String × String)
  container : Json
  file : Json

/-- One record `{"uuid": uuid, "name": name}` of the container, as built by
`_update_container`. -/
def entryJson (name uuid : String) : Json :=
  Json.obj [("uuid", Json.str uuid), ("name", Json.str name)]

/-- `Whitelist._update_container`: rebuild the container from `_usernames`,
one `{"uuid": ..., "name": ...}` record per mapping entry, in order. -/
def Whitelist.update_container (usernames : List (String × String)) : Json :=
  Json.arr (usernames.map (fun p => entryJson p.1 p.2))

/-- `Whitelist.save`: `_update_container()` then `json.dump` the container to
the backing file. -/
def Whitelist.save (w : Whitelist) : Whitelist :=
  { w with
    container := Whitelist.update_container w.usernames
    file := Whitelist.update_container w.usernames }

/-- Python slice `s[i:j]` (with `0 ≤ i ≤ j`): drop `i` characters, take at
most `j - i`; out-of-range slices truncate silently. -/
def pySlice (s : String) (i j : Nat) : String :=
  String.mk ((s.data.drop i).take (j - i))

/-- `Whitelist.id_to_uuid`: slice the input at offsets 8, 4, 4, 4, 12 and join
the five batches with dashes.  A pure function of the input string; built by
the same fold over `[8, 4, 4, 4, 12]` as the Python loop. -/
def Whitelist.id_to_uuid (id_ : String) : String :=
  let r := [8, 4, 4, 4, 12].foldl
    (fun (acc : List String × Nat) n =>
      (acc.1 ++ [pySlice id_ acc.2 (acc.2 + n)], acc.2 + n))
    ([], 0)
  String.intercalate "-" r.1

/-- Loop body of `Whitelist.add`: try to resolve the target (the resolver `r`
models `MojangAPI.get_uuid`; `none` is any exception, including `get_uuid`
returning `None` which makes `id_to_uuid` raise).  On success record
`id_to_uuid` of the compact id in the `update` dict and print a message; on
failure `pass` (no output, no change). -/
def addStep (r : String → Option String)
    (acc : List (String × String) × List Event) (target : String) :
    List (String × String) × List Event :=
  match r target with
  | some cid =>
      (dictInsert acc.1 target (Whitelist.id_to_uuid cid),
       acc.2 ++ [Event.msg ("Added " ++ target ++ " to whitelist")])
  | none => acc

/-- `Whitelist.add`: build the `update` dict over the whole batch, merge it
into `_usernames` with `dict.update`, then `save()` once. -/
def Whitelist.add (w : Whitelist) (targets : List String)
    (r : String → Option String) : Whitelist × List Event :=
  let res := targets.foldl (addStep r) ([], [])
  (Whitelist.save { w with usernames := dictUpdate w.usernames res.1 },
   res.2 ++ [Event.save])

/-- Loop body of `Whitelist.remove`: if the target is a key of the dict,
`pop` it (a dict holds at most one entry per key) and print a message;
otherwise do nothing. -/
def removeStep (acc : List (String × String) × List Event) (target : String) :
    List (String × String) × List Event :=
  if (dictLookup acc.1 target).isSome then
    (dictRemove acc.1 target,
     acc.2 ++ [Event.msg ("Removed " ++ target ++ " from whitelist")])
  else acc

/-- `Whitelist.remove`: process the whole batch, then `save()` once. -/
def Whitelist.remove (w : Whitelist) (targets : List String) :
    Whitelist × List Event :=
  let res := targets.foldl removeStep (w.usernames, [])
  (Whitelist.save { w with usernames := res.1 }, res.2 ++ [Event.save])

/-- Python iteration `for item in c` over a parsed JSON value: a list yields
its items, a string yields its characters (as 1-character strings), a dict
yields its keys; numbers, booleans and `None` are not iterable
(`TypeError`, modelled as `none`). -/
def pyIterate : Json → Option (List Json)
  | Json.arr items => some items
  | Json.str s => some (s.data.map (fun c => Json.str (String.mk [c])))
  | Json.obj fields => some (fields.map (fun f => Json.str f.1))
  | _ => none

/-- Python subscript `item[key]` with a string key: only a dict supports it
(`json.load` keeps the last value of a duplicated object key, hence the
lookup on the reversed field list); a missing key (`KeyError`) or a non-dict
item (`TypeError`) is modelled as `none`. -/
def pySubscript (item : Json) (key : String) : Option Json :=
  match item with
  | Json.obj fields => dictLookup fields.reverse key
  | _ => none

/-- Using a JSON value as a Python `dict` key: scalars are hashable, lists
and objects raise `TypeError` (modelled as `none`). -/
def toKey : Json → Option PyKey
  | Json.null => some PyKey.null
  | Json.bool b => some (PyKey.bool b)
  | Json.num n => some (PyKey.num n)
  | Json.str s => some (PyKey.str s)
  | Json.arr _ => none
  | Json.obj _ => none

/-- One step of the dict comprehension in `Whitelist.load`:
`{item['name']: item['uuid'] for item in container}`.  Both subscripts must
succeed and the name must be hashable; any failure aborts `load` with an
uncaught exception (`none`). -/
def loadStep (acc : List (PyKey × Json)) (item : Json) :
    Option (List (PyKey × Json)) := do
  let n ← pySubscript item "name"
  let u ← pySubscript item "uuid"
  let k ← toKey n
  pure (dictInsert acc k u)

/-- The dict comprehension of `Whitelist.load` over the iterated items. -/
def buildDict (items : List Json) : Option (List (PyKey × Json)) :=
  items.foldlM loadStep []

/-- `Whitelist.load`, restricted to its observable result: parse the backing
file's JSON value and rebuild the `_usernames` dict from it.  `none` models
an uncaught exception escaping `load`. -/
def loadDict (file : Json) : Option (List (PyKey × Json)) :=
  (pyIterate file).bind buildDict

/-- The `ConnectionError` family: `ConnectionRefusedError`,
`ConnectionResetError`, `ConnectionAbortedError`, and any other subclass
(e.g. `BrokenPipeError`), carrying its description. -/
inductive PyConnError where
  | refused
  | reset
  | aborted
  | otherConn (descr : String)
deriving DecidableEq

/-- `send_command_to_mcrcon`.  The opaque `MCRcon` client is modelled by its
two possible behaviours at this call: `connect` (the outcome of `__enter__`;
`none` means the connection was established) and `command` (the outcome of
`mcr.command`).  The result pairs the returned string with the number of
times the connection was closed (`with` calls `__exit__` exactly once
whenever `__enter__` succeeded, on success and on exception alike).
`reprE` models Python's `repr` of an exception object. -/
def send_command_to_mcrcon (reprE : PyConnError → String)
    (connect : Option PyConnError) (command : Except PyConnError String) :
    String × Nat :=
  match connect with
  | some PyConnError.refused =>
      ("The connection could not be made as the server actively refused it.", 0)
  | some e => (reprE e, 0)
  | none =>
      match command with
      | Except.ok resp => (resp, 1)
      | Except.error PyConnError.reset =>
          ("The connection was terminated, the server may have been stopped.", 1)
      | Except.error PyConnError.aborted =>
          ("The connection was terminated, the server may have been stopped.", 1)
      | Except.error PyConnError.refused =>
          ("The connection could not be made as the server actively refused it.", 1)
      | Except.error e => (reprE e, 1)

/-- The `rcon add` sub-command declares `targets` with `required=True`. -/
def rconAddTargetsRequired : Bool := true

/-- The `rcon remove` sub-command declares `targets` without `required`,
which for a variadic `click` argument defaults to optional. -/
def rconRemoveTargetsRequired : Bool := false

/-- `click`'s handling of a variadic argument: an empty invocation is
rejected exactly when the argument was declared `required`. -/
def clickAccepts (required : Bool) (targets : List String) : Bool :=
  !required || !targets.isEmpty

/-- Command string built by `rcon remove`. -/
def rconRemoveCmd (targets : List String) : String :=
  "/whitelist remove " ++ String.intercalate " " targets

/-- Command string built by `rcon add`. -/
def rconAddCmd (targets : List String) : String :=
  "/whitelist add " ++ String.intercalate " " targets

/-- The dispatch loop shared by the `rcon` sub-commands: the same command
string is sent to every configured destination, in order. -/
def rconDispatch (cmd : String) (dests : List String) : List (String × String) :=
  dests.map (fun d => (d, cmd))

/-- A batch operation on the store, for stating invariants over operation
sequences. -/
inductive Op where
  | add (targets : List String)
  | remove (targets : List String)

/-- Apply one batch operation (discarding the event trace). -/
def applyOp (r : String → Option String) (w : Whitelist) : Op → Whitelist
  | Op.add ts => (Whitelist.add w ts r).1
  | Op.remove ts => (Whitelist.remove w ts).1

/-- Apply a sequence of batch operations. -/
def applyOps (r : String → Option String) (w : Whitelist) (ops : List Op) :
    Whitelist :=
  ops.foldl (applyOp r) w

/-- Canonical 36-character hyphenated uuid form: five dash-free groups of
lengths 8, 4, 4, 4, 12 joined by dashes. -/
def canonicalUuid (s : String) : Prop :=
  ∃ g1 g2 g3 g4 g5 : String,
    s = g1 ++ "-" ++ g2 ++ "-" ++ g3 ++ "-" ++ g4 ++ "-" ++ g5 ∧
    g1.length = 8 ∧ g2.length = 4 ∧ g3.length = 4 ∧ g4.length = 4 ∧
    g5.length = 12 ∧
    '-' ∉ g1.data ∧ '-' ∉ g2.data ∧ '-' ∉ g3.data ∧ '-' ∉ g4.data ∧
    '-' ∉ g5.data

/-- Invariant of the data model: names unique within a store, every stored
uuid canonical. -/
def StoreInvariant (w : Whitelist) : Prop :=
  (w.usernames.map Prod.fst).Nodup ∧ ∀ p ∈ w.usernames, canonicalUuid p.2

/-! ### Association-list (Python dict) lemmas -/

theorem dictLookup_dictInsert {α β : Type} [DecidableEq α]
    (m : List (α × β)) (k' k : α) (v : β) :
    dictLookup (dictInsert m k' v) k =
      if k' = k then some v else dictLookup m k := by
  induction m with
  | nil => by_cases h : k' = k <;> simp [dictInsert, dictLookup, h]
  | cons p rest ih =>
      by_cases hp : p.1 = k'
      · by_cases h : k' = k <;>
          simp [dictInsert, dictLookup, hp, h]
      · by_cases h : p.1 = k
        · have hk : ¬ k' = k := fun e => hp (by rw [e, h])
          have hk2 : ¬ k = k' := fun e => hk e.symm
          simp [dictInsert, dictLookup, hp, h, hk, hk2]
        · simp [dictInsert, dictLookup, hp, h, ih]

theorem dictLookup_eq_none_iff {α β : Type} [DecidableEq α]
    (m : List (α × β)) (k : α) :
    dictLookup m k = none ↔ ∀ p ∈ m, p.1 ≠ k := by
  induction m with
  | nil => simp [dictLookup]
  | cons p rest ih =>
      by_cases hp : p.1 = k
      · simp [dictLookup, hp]
      · simp [dictLookup, hp, ih]

theorem dictLookup_dictRemove {α β : Type} [DecidableEq α]
    (m : List (α × β)) (k' k : α)
    (hm : (m.map Prod.fst).Nodup) :
    dictLookup (dictRemove m k') k =
      if k' = k then none else dictLookup m k := by
  induction m with
  | nil => by_cases h : k' = k <;> simp [dictRemove, dictLookup, h]
  | cons p rest ih =>
      simp only [List.map_cons, List.nodup_cons] at hm
      by_cases hp : p.1 = k'
      · by_cases h : k' = k
        · subst h
          have hnone : dictLookup rest k' = none := by
            refine (dictLookup_eq_none_iff rest k').mpr ?_
            intro q hq e
            exact hm.1 (hp ▸ e ▸ List.mem_map_of_mem Prod.fst hq)
          simp [dictRemove, hp, hnone]
        · have hpk : ¬ p.1 = k := fun e => h (by rw [← hp, e])
          simp [dictRemove, dictLookup, hp, hpk, h]
      · by_cases h : p.1 = k
        · have hk : ¬ k' = k := fun e => hp (by rw [e, h])
          have hk2 : ¬ k = k' := fun e => hk e.symm
          simp [dictRemove, dictLookup, hp, h, hk, hk2]
        · simp [dictRemove, dictLookup, hp, h, ih hm.2]

theorem dictRemove_subset {α β : Type} [DecidableEq α]
    (m : List (α × β)) (k : α) (q : α × β)
    (hq : q ∈ dictRemove m k) : q ∈ m := by
  induction m with
  | nil => simp [dictRemove] at hq
  | cons p rest ih =>
      by_cases hp : p.1 = k
      · simp only [dictRemove, if_pos hp] at hq
        exact List.mem_cons_of_mem _ hq
      · simp only [dictRemove, if_neg hp] at hq
        rcases List.mem_cons.mp hq with h | h
        · exact h ▸ List.mem_cons_self _ _
        · exact List.mem_cons_of_mem _ (ih h)

theorem dictRemove_keys_sublist {α β : Type} [DecidableEq α]
    (m : List (α × β)) (k : α) :
    ((dictRemove m k).map Prod.fst).Sublist (m.map Prod.fst) := by
  induction m with
  | nil => simp [dictRemove]
  | cons p rest ih =>
      by_cases hp : p.1 = k
      · simp only [dictRemove, if_pos hp, List.map_cons]
        exact (List.Sublist.refl _).cons _
      · simp only [dictRemove, if_neg hp, List.map_cons]
        exact ih.cons₂ _

theorem dictInsert_of_not_key {α β : Type} [DecidableEq α]
    (m : List (α × β)) (k : α) (v : β) (h : k ∉ m.map Prod.fst) :
    dictInsert m k v = m ++ [(k, v)] := by
  induction m with
  | nil => rfl
  | cons p rest ih =>
      simp only [List.map_cons, List.mem_cons] at h
      push_neg at h
      have hp : ¬ p.1 = k := fun e => h.1 e.symm
      simp [dictInsert, hp, ih h.2]

theorem dictInsert_mem {α β : Type} [DecidableEq α]
    (m : List (α × β)) (k : α) (v : β) (q : α × β)
    (hq : q ∈ dictInsert m k v) : q ∈ m ∨ q = (k, v) := by
  induction m with
  | nil => simpa [dictInsert] using hq
  | cons p rest ih =>
      by_cases hp : p.1 = k
      · simp only [dictInsert, if_pos hp] at hq
        rcases List.mem_cons.mp hq with h | h
        · exact Or.inr h
        · exact Or.inl (List.mem_cons_of_mem _ h)
      · simp only [dictInsert, if_neg hp] at hq
        rcases List.mem_cons.mp hq with h | h
        · exact Or.inl (h ▸ List.mem_cons_self _ _)
        · rcases ih h with h' | h'
          · exact Or.inl (List.mem_cons_of_mem _ h')
          · exact Or.inr h'

theorem dictInsert_keys_mem {α β : Type} [DecidableEq α]
    (m : List (α × β)) (k : α) (v : β) (a : α)
    (ha : a ∈ (dictInsert m k v).map Prod.fst) :
    a ∈ m.map Prod.fst ∨ a = k := by
  rcases List.mem_map.mp ha with ⟨q, hq, rfl⟩
  rcases dictInsert_mem m k v q hq with h | h
  · exact Or.inl (List.mem_map_of_mem _ h)
  · exact Or.inr (by rw [h])

theorem dictInsert_keys_nodup {α β : Type} [DecidableEq α]
    (m : List (α × β)) (k : α) (v : β)
    (h : (m.map Prod.fst).Nodup) :
    ((dictInsert m k v).map Prod.fst).Nodup := by
  induction m with
  | nil => simp [dictInsert]
  | cons p rest ih =>
      simp only [List.map_cons, List.nodup_cons] at h
      by_cases hp : p.1 = k
      · simp only [dictInsert, if_pos hp, List.map_cons]
        exact List.nodup_cons.mpr ⟨hp ▸ h.1, h.2⟩
      · simp only [dictInsert, if_neg hp, List.map_cons]
        refine List.nodup_cons.mpr ⟨?_, ih h.2⟩
        intro hmem
        rcases dictInsert_keys_mem rest k v p.1 hmem with h' | h'
        · exact h.1 h'
        · exact hp h'

theorem dictLookup_append {α β : Type} [DecidableEq α]
    (a b : List (α × β)) (k : α) :
    dictLookup (a ++ b) k =
      match dictLookup a k with
      | some v => some v
      | none => dictLookup b k := by
  induction a with
  | nil => simp [dictLookup]
  | cons p rest ih =>
      by_cases hp : p.1 = k <;> simp [dictLookup, hp, ih]

theorem insertFold_lookup {α β : Type} [DecidableEq α]
    (l : List (α × β)) (acc : List (α × β)) (k : α) :
    dictLookup (l.foldl (fun m p => dictInsert m p.1 p.2) acc) k =
      match dictLookup l.reverse k with
      | some v => some v
      | none => dictLookup acc k := by
  induction l generalizing acc with
  | nil => simp [dictLookup]
  | cons p rest ih =>
      simp only [List.foldl_cons, List.reverse_cons]
      rw [ih, dictLookup_append]
      cases hfind : dictLookup rest.reverse k with
      | some v => simp
      | none =>
          by_cases hpk : p.1 = k <;>
            simp [dictLookup, hpk, dictLookup_dictInsert]

theorem insertFold_of_fresh {α β : Type} [DecidableEq α]
    (l acc : List (α × β))
    (hd : ∀ p ∈ l, p.1 ∉ acc.map Prod.fst)
    (hn : (l.map Prod.fst).Nodup) :
    l.foldl (fun m p => dictInsert m p.1 p.2) acc = acc ++ l := by
  induction l generalizing acc with
  | nil => simp
  | cons p rest ih =>
      simp only [List.map_cons, List.nodup_cons] at hn
      rw [List.foldl_cons,
        dictInsert_of_not_key acc p.1 p.2 (hd p (List.mem_cons_self _ _)),
        ih (acc ++ [p])]
      · simp
      · intro q hq
        simp only [List.map_append, List.mem_append]
        push_neg
        refine ⟨hd q (List.mem_cons_of_mem _ hq), ?_⟩
        simp only [List.map_cons, List.map_nil, List.mem_singleton]
        intro e
        exact hn.1 (e ▸ List.mem_map_of_mem Prod.fst hq)
      · exact hn.2

theorem dictUpdate_keys_nodup {α β : Type} [DecidableEq α]
    (m u : List (α × β)) (h : (m.map Prod.fst).Nodup) :
    ((dictUpdate m u).map Prod.fst).Nodup := by
  induction u generalizing m with
  | nil => simpa [dictUpdate]
  | cons p rest ih =>
      simpa [dictUpdate] using ih (dictInsert m p.1 p.2)
        (dictInsert_keys_nodup m p.1 p.2 h)

theorem dictUpdate_mem {α β : Type} [DecidableEq α]
    (m u : List (α × β)) (q : α × β) (hq : q ∈ dictUpdate m u) :
    q ∈ m ∨ q ∈ u := by
  induction u generalizing m with
  | nil => exact Or.inl (by simpa [dictUpdate] using hq)
  | cons p rest ih =>
      have hq' : q ∈ dictUpdate (dictInsert m p.1 p.2) rest := by
        simpa [dictUpdate] using hq
      rcases ih (dictInsert m p.1 p.2) hq' with h | h
      · rcases dictInsert_mem m p.1 p.2 q h with h' | h'
        · exact Or.inl h'
        · exact Or.inr (h' ▸ List.mem_cons_self _ _)
      · exact Or.inr (List.mem_cons_of_mem _ h)


/-! ### String and slice lemmas -/

theorem pySlice_data (s : String) (i j : Nat) :
    (pySlice s i j).data = (s.data.drop i).take (j - i) := rfl

theorem pySlice_length (s : String) (i j : Nat) :
    (pySlice s i j).length = min (j - i) (s.data.length - i) := by
  show ((s.data.drop i).take (j - i)).length = _
  rw [List.length_take, List.length_drop]

theorem pySlice_subset (s : String) (i j : Nat) (c : Char)
    (hc : c ∈ (pySlice s i j).data) : c ∈ s.data := by
  rw [pySlice_data] at hc
  exact List.drop_subset i s.data (List.take_subset _ _ hc)

theorem pySlice_append (s : String) (i j k : Nat) (h1 : i ≤ j) (h2 : j ≤ k) :
    pySlice s i j ++ pySlice s j k = pySlice s i k := by
  apply String.ext
  rw [String.data_append, pySlice_data, pySlice_data, pySlice_data]
  have e1 : (s.data.drop i).drop (j - i) = s.data.drop j := by
    rw [List.drop_drop]
    congr 1
    omega
  have e2 : (j - i) + (k - j) = k - i := by omega
  calc (s.data.drop i).take (j - i) ++ (s.data.drop j).take (k - j)
      = (s.data.drop i).take (j - i) ++
          ((s.data.drop i).drop (j - i)).take (k - j) := by rw [e1]
    _ = (s.data.drop i).take ((j - i) + (k - j)) := (List.take_add ..).symm
    _ = (s.data.drop i).take (k - i) := by rw [e2]

theorem id_to_uuid_eq (s : String) :
    Whitelist.id_to_uuid s =
      pySlice s 0 8 ++ "-" ++ pySlice s 8 12 ++ "-" ++ pySlice s 12 16 ++
        "-" ++ pySlice s 16 20 ++ "-" ++ pySlice s 20 32 := by
  show String.intercalate "-"
      [pySlice s 0 8, pySlice s 8 12, pySlice s 12 16, pySlice s 16 20,
       pySlice s 20 32] = _
  simp [String.intercalate, String.intercalate.go, String.append_assoc]

theorem slices_concat (s : String) :
    pySlice s 0 8 ++ pySlice s 8 12 ++ pySlice s 12 16 ++
      pySlice s 16 20 ++ pySlice s 20 32 = String.mk (s.data.take 32) := by
  rw [pySlice_append s 0 8 12 (by omega) (by omega),
    pySlice_append s 0 12 16 (by omega) (by omega),
    pySlice_append s 0 16 20 (by omega) (by omega),
    pySlice_append s 0 20 32 (by omega) (by omega)]
  apply String.ext
  simp [pySlice]

/-- Shared shape lemma for `id_to_uuid` on 32-character input: the five
groups, their lengths, their dash-freeness, and their concatenation. -/
theorem id_to_uuid_shape (s : String) (h32 : s.length = 32)
    (hd : '-' ∉ s.data) :
    canonicalUuid (Whitelist.id_to_uuid s) ∧
      pySlice s 0 8 ++ pySlice s 8 12 ++ pySlice s 12 16 ++
        pySlice s 16 20 ++ pySlice s 20 32 = s := by
  have hlen : s.data.length = 32 := h32
  have hconcat : pySlice s 0 8 ++ pySlice s 8 12 ++ pySlice s 12 16 ++
      pySlice s 16 20 ++ pySlice s 20 32 = s := by
    rw [slices_concat, List.take_of_length_le (by omega)]
  refine ⟨⟨pySlice s 0 8, pySlice s 8 12, pySlice s 12 16, pySlice s 16 20,
    pySlice s 20 32, id_to_uuid_eq s, ?_, ?_, ?_, ?_, ?_, ?_, ?_, ?_, ?_, ?_⟩,
    hconcat⟩
  · rw [pySlice_length]; omega
  · rw [pySlice_length]; omega
  · rw [pySlice_length]; omega
  · rw [pySlice_length]; omega
  · rw [pySlice_length]; omega
  · exact fun hc => hd (pySlice_subset s 0 8 '-' hc)
  · exact fun hc => hd (pySlice_subset s 8 12 '-' hc)
  · exact fun hc => hd (pySlice_subset s 12 16 '-' hc)
  · exact fun hc => hd (pySlice_subset s 16 20 '-' hc)
  · exact fun hc => hd (pySlice_subset s 20 32 '-' hc)

/-! ### Lemmas about the add and remove loops -/

theorem addLoop_fst_lookup (r : String → Option String) (l : List String)
    (acc : List (String × String) × List Event) (t : String) :
    dictLookup (l.foldl (addStep r) acc).1 t =
      match r t with
      | none => dictLookup acc.1 t
      | some c =>
          if t ∈ l then some (Whitelist.id_to_uuid c) else dictLookup acc.1 t := by
  induction l generalizing acc with
  | nil => cases r t <;> simp
  | cons hd tl ih =>
      rw [List.foldl_cons, ih]
      cases hrt : r t with
      | none =>
          cases hhd : r hd with
          | none => simp [addStep, hhd]
          | some c' =>
              have hne : ¬ hd = t := fun e => by
                rw [e, hrt] at hhd; exact Option.noConfusion hhd
              simp [addStep, hhd, dictLookup_dictInsert, hne]
      | some c =>
          by_cases htl : t ∈ tl
          · simp [htl, List.mem_cons_of_mem hd htl]
          · by_cases hht : t = hd
            · subst hht
              simp [htl, addStep, hrt, dictLookup_dictInsert]
            · have hth : ¬ hd = t := fun e => hht e.symm
              cases hhd : r hd with
              | none => simp [addStep, hhd, htl, hht]
              | some c' =>
                  simp [addStep, hhd, dictLookup_dictInsert, hth, htl, hht]

theorem addLoop_fst_mem (r : String → Option String) (l : List String)
    (acc : List (String × String) × List Event)
    (hacc : ∀ p ∈ acc.1, ∃ c, r p.1 = some c ∧ p.2 = Whitelist.id_to_uuid c) :
    ∀ p ∈ (l.foldl (addStep r) acc).1,
      ∃ c, r p.1 = some c ∧ p.2 = Whitelist.id_to_uuid c := by
  induction l generalizing acc with
  | nil => exact hacc
  | cons hd tl ih =>
      rw [List.foldl_cons]
      cases hrhd : r hd with
      | none =>
          have hstep : addStep r acc hd = acc := by simp [addStep, hrhd]
          rw [hstep]
          exact ih acc hacc
      | some c' =>
          refine ih _ ?_
          intro p hp
          simp only [addStep, hrhd] at hp
          rcases dictInsert_mem _ _ _ p hp with h | h
          · exact hacc p h
          · exact ⟨c', by rw [h, hrhd], by rw [h]⟩

theorem addLoop_fst_keys_nodup (r : String → Option String) (l : List String)
    (acc : List (String × String) × List Event)
    (hacc : (acc.1.map Prod.fst).Nodup) :
    (((l.foldl (addStep r) acc).1).map Prod.fst).Nodup := by
  induction l generalizing acc with
  | nil => exact hacc
  | cons hd tl ih =>
      rw [List.foldl_cons]
      cases hrhd : r hd with
      | none =>
          have hstep : addStep r acc hd = acc := by simp [addStep, hrhd]
          rw [hstep]
          exact ih acc hacc
      | some c' =>
          refine ih _ ?_
          simp only [addStep, hrhd]
          exact dictInsert_keys_nodup _ _ _ hacc

theorem addLoop_snd (r : String → Option String) (l : List String)
    (acc : List (String × String) × List Event) :
    (l.foldl (addStep r) acc).2 =
      acc.2 ++ (l.filter (fun t => (r t).isSome)).map
        (fun t => Event.msg ("Added " ++ t ++ " to whitelist")) := by
  induction l generalizing acc with
  | nil => simp
  | cons hd tl ih =>
      rw [List.foldl_cons]
      cases hrhd : r hd with
      | none => simp [addStep, hrhd, ih, List.filter_cons]
      | some c' => simp [addStep, hrhd, ih, List.filter_cons]

theorem removeLoop_fst_lookup (l : List String)
    (acc : List (String × String) × List Event) (t : String)
    (hacc : (acc.1.map Prod.fst).Nodup) :
    dictLookup (l.foldl removeStep acc).1 t =
      if t ∈ l then none else dictLookup acc.1 t := by
  induction l generalizing acc with
  | nil => simp
  | cons hd tl ih =>
      rw [List.foldl_cons]
      by_cases hpres : (dictLookup acc.1 hd).isSome
      · have hstep : removeStep acc hd =
            (dictRemove acc.1 hd,
             acc.2 ++ [Event.msg ("Removed " ++ hd ++ " from whitelist")]) := by
          simp [removeStep, hpres]
        have hnodup : ((dictRemove acc.1 hd).map Prod.fst).Nodup :=
          hacc.sublist (dictRemove_keys_sublist acc.1 hd)
        rw [hstep, ih _ hnodup]
        by_cases htl : t ∈ tl
        · simp [htl]
        · by_cases hht : t = hd
          · subst hht
            simp [htl, dictLookup_dictRemove _ _ _ hacc]
          · have hth : ¬ hd = t := fun e => hht e.symm
            simp [htl, hht, dictLookup_dictRemove _ _ _ hacc, hth]
      · have hstep : removeStep acc hd = acc := by simp [removeStep, hpres]
        rw [hstep, ih _ hacc]
        by_cases htl : t ∈ tl
        · simp [htl]
        · by_cases hht : t = hd
          · subst hht
            have hnone : dictLookup acc.1 t = none := by
              cases h : dictLookup acc.1 t with
              | none => rfl
              | some v => rw [h] at hpres; exact absurd rfl hpres
            simp [htl, hnone]
          · simp [htl, hht]

theorem removeLoop_fst_of_absent (l : List String)
    (acc : List (String × String) × List Event)
    (h : ∀ t ∈ l, dictLookup acc.1 t = none) :
    (l.foldl removeStep acc).1 = acc.1 := by
  induction l generalizing acc with
  | nil => rfl
  | cons hd tl ih =>
      rw [List.foldl_cons]
      have hstep : removeStep acc hd = acc := by
        simp [removeStep, h hd (List.mem_cons_self _ _)]
      rw [hstep]
      exact ih acc (fun t ht => h t (List.mem_cons_of_mem _ ht))

theorem removeLoop_fst_subset (l : List String)
    (acc : List (String × String) × List Event) (q : String × String)
    (hq : q ∈ (l.foldl removeStep acc).1) : q ∈ acc.1 := by
  induction l generalizing acc with
  | nil => exact hq
  | cons hd tl ih =>
      rw [List.foldl_cons] at hq
      by_cases hpres : (dictLookup acc.1 hd).isSome
      · have hstep : removeStep acc hd =
            (dictRemove acc.1 hd,
             acc.2 ++ [Event.msg ("Removed " ++ hd ++ " from whitelist")]) := by
          simp [removeStep, hpres]
        rw [hstep] at hq
        exact dictRemove_subset acc.1 hd q (ih _ hq)
      · have hstep : removeStep acc hd = acc := by simp [removeStep, hpres]
        rw [hstep] at hq
        exact ih acc hq

theorem removeLoop_fst_keys_nodup (l : List String)
    (acc : List (String × String) × List Event)
    (hacc : (acc.1.map Prod.fst).Nodup) :
    (((l.foldl removeStep acc).1).map Prod.fst).Nodup := by
  induction l generalizing acc with
  | nil => exact hacc
  | cons hd tl ih =>
      rw [List.foldl_cons]
      by_cases hpres : (dictLookup acc.1 hd).isSome
      · have hstep : removeStep acc hd =
            (dictRemove acc.1 hd,
             acc.2 ++ [Event.msg ("Removed " ++ hd ++ " from whitelist")]) := by
          simp [removeStep, hpres]
        rw [hstep]
        exact ih _ (hacc.sublist (dictRemove_keys_sublist acc.1 hd))
      · have hstep : removeStep acc hd = acc := by simp [removeStep, hpres]
        rw [hstep]
        exact ih acc hacc

theorem removeLoop_snd_count (l : List String)
    (acc : List (String × String) × List Event) :
    ((l.foldl removeStep acc).2).count Event.save = acc.2.count Event.save := by
  induction l generalizing acc with
  | nil => rfl
  | cons hd tl ih =>
      rw [List.foldl_cons]
      by_cases hpres : (dictLookup acc.1 hd).isSome
      · have hstep : removeStep acc hd =
            (dictRemove acc.1 hd,
             acc.2 ++ [Event.msg ("Removed " ++ hd ++ " from whitelist")]) := by
          simp [removeStep, hpres]
        rw [hstep, ih]
        simp [List.count_append, List.count_singleton]
      · have hstep : removeStep acc hd = acc := by simp [removeStep, hpres]
        rw [hstep, ih]

/-! ### Lemmas about the load path -/

theorem loadStep_entryJson (acc : List (PyKey × Json)) (n u : String) :
    loadStep acc (entryJson n u) =
      some (dictInsert acc (PyKey.str n) (Json.str u)) := rfl

theorem buildDict_encoded (records : List (String × String))
    (acc : List (PyKey × Json)) :
    (records.map (fun p => entryJson p.1 p.2)).foldlM loadStep acc =
      some (records.foldl
        (fun m p => dictInsert m (PyKey.str p.1) (Json.str p.2)) acc) := by
  induction records generalizing acc with
  | nil => rfl
  | cons p rest ih =>
      rw [List.map_cons, List.foldlM_cons, loadStep_entryJson]
      show (rest.map (fun p => entryJson p.1 p.2)).foldlM loadStep
          (dictInsert acc (PyKey.str p.1) (Json.str p.2)) = _
      rw [ih, List.foldl_cons]

theorem insertFold_str (records : List (String × String))
    (acc : List (PyKey × Json)) :
    records.foldl (fun m p => dictInsert m (PyKey.str p.1) (Json.str p.2)) acc =
      (records.map (fun p => (PyKey.str p.1, Json.str p.2))).foldl
        (fun m p => dictInsert m p.1 p.2) acc := by
  induction records generalizing acc with
  | nil => rfl
  | cons p rest ih => rw [List.foldl_cons, List.map_cons, List.foldl_cons, ih]

theorem loadDict_arr (records : List (String × String)) :
    loadDict (Json.arr (records.map (fun p => entryJson p.1 p.2))) =
      some ((records.map (fun p => (PyKey.str p.1, Json.str p.2))).foldl
        (fun m p => dictInsert m p.1 p.2) []) := by
  show (records.map (fun p => entryJson p.1 p.2)).foldlM loadStep [] = _
  rw [buildDict_encoded, insertFold_str]

theorem dictLookup_map_str (l : List (String × String)) (name : String) :
    dictLookup (l.map (fun p => (PyKey.str p.1, Json.str p.2)))
        (PyKey.str name) =
      (dictLookup l name).map Json.str := by
  induction l with
  | nil => rfl
  | cons p rest ih =>
      by_cases hp : p.1 = name <;> simp [dictLookup, hp, ih]

theorem keys_str_nodup (m : List (String × String))
    (h : (m.map Prod.fst).Nodup) :
    ((m.map (fun p => (PyKey.str p.1, Json.str p.2))).map Prod.fst).Nodup := by
  have hinj : Function.Injective PyKey.str := fun a b e => by injection e
  have h2 : ((m.map Prod.fst).map PyKey.str).Nodup := h.map hinj
  simpa [List.map_map, Function.comp] using h2

theorem loadDict_update_container (m : List (String × String))
    (h : (m.map Prod.fst).Nodup) :
    loadDict (Whitelist.update_container m) =
      some (m.map (fun p => (PyKey.str p.1, Json.str p.2))) := by
  show loadDict (Json.arr (m.map (fun p => entryJson p.1 p.2))) = _
  rw [loadDict_arr, insertFold_of_fresh]
  · rw [List.nil_append]
  · intro p hp
    simp
  · exact keys_str_nodup m h

/-! ### Remaining small helpers -/

theorem dictLookup_some_mem {α β : Type} [DecidableEq α]
    (m : List (α × β)) (k : α) (v : β) (h : dictLookup m k = some v) :
    (k, v) ∈ m := by
  induction m with
  | nil => exact Option.noConfusion h
  | cons p rest ih =>
      by_cases hp : p.1 = k
      · simp only [dictLookup, if_pos hp] at h
        have : p = (k, v) := by
          cases p
          simp only [Option.some.injEq] at h
          simp_all
        exact this ▸ List.mem_cons_self _ _
      · simp only [dictLookup, if_neg hp] at h
        exact List.mem_cons_of_mem _ (ih h)

theorem addLoop_fst_of_failures (r : String → Option String) (l : List String)
    (acc : List (String × String) × List Event)
    (h : ∀ t ∈ l, r t = none) :
    (l.foldl (addStep r) acc).1 = acc.1 := by
  induction l generalizing acc with
  | nil => rfl
  | cons hd tl ih =>
      rw [List.foldl_cons]
      have hstep : addStep r acc hd = acc := by
        simp [addStep, h hd (List.mem_cons_self _ _)]
      rw [hstep]
      exact ih acc (fun t ht => h t (List.mem_cons_of_mem _ ht))

theorem canonicalUuid_length (s : String) (h : canonicalUuid s) :
    s.length = 36 := by
  obtain ⟨g1, g2, g3, g4, g5, he, h1, h2, h3, h4, h5, -, -, -, -, -⟩ := h
  rw [he]
  simp only [String.length_append, h1, h2, h3, h4, h5]
  rfl

/-! ### Claim theorems -/

/-- C2: for every well-formed 32-character compact identifier (32 characters,
no dash separator, per the glossary), `Whitelist.id_to_uuid` returns exactly
five dash-separated dash-free groups of lengths 8, 4, 4, 4 and 12, and
concatenating the groups with the dashes removed reproduces the input.  The
transformation is a Lean function of the input string, hence deterministic,
total and side-effect-free on such input. -/
theorem id_to_uuid_canonical_groups (s : String) (h32 : s.length = 32)
    (hd : '-' ∉ s.data) :
    ∃ g1 g2 g3 g4 g5 : String,
      Whitelist.id_to_uuid s =
          g1 ++ "-" ++ g2 ++ "-" ++ g3 ++ "-" ++ g4 ++ "-" ++ g5 ∧
        g1.length = 8 ∧ g2.length = 4 ∧ g3.length = 4 ∧ g4.length = 4 ∧
        g5.length = 12 ∧
        '-' ∉ g1.data ∧ '-' ∉ g2.data ∧ '-' ∉ g3.data ∧ '-' ∉ g4.data ∧
        '-' ∉ g5.data ∧
        g1 ++ g2 ++ g3 ++ g4 ++ g5 = s := by
  have hlen : s.data.length = 32 := h32
  refine ⟨pySlice s 0 8, pySlice s 8 12, pySlice s 12 16, pySlice s 16 20,
    pySlice s 20 32, id_to_uuid_eq s, ?_, ?_, ?_, ?_, ?_,
    fun hc => hd (pySlice_subset s 0 8 '-' hc),
    fun hc => hd (pySlice_subset s 8 12 '-' hc),
    fun hc => hd (pySlice_subset s 12 16 '-' hc),
    fun hc => hd (pySlice_subset s 16 20 '-' hc),
    fun hc => hd (pySlice_subset s 20 32 '-' hc), ?_⟩
  · rw [pySlice_length]; omega
  · rw [pySlice_length]; omega
  · rw [pySlice_length]; omega
  · rw [pySlice_length]; omega
  · rw [pySlice_length]; omega
  · rw [slices_concat s, List.take_of_length_le (by omega)]

/-- Witness for C2 at the concrete compact identifier from the source's own
doctest. -/
theorem id_to_uuid_canonical_groups_witness :
    ("bb9b450bdc414e5eaafd57bcfbf98617" : String).length = 32 ∧
      ∃ g1 g2 g3 g4 g5 : String,
        Whitelist.id_to_uuid "bb9b450bdc414e5eaafd57bcfbf98617" =
            g1 ++ "-" ++ g2 ++ "-" ++ g3 ++ "-" ++ g4 ++ "-" ++ g5 ∧
          g1.length = 8 ∧ g2.length = 4 ∧ g3.length = 4 ∧ g4.length = 4 ∧
          g5.length = 12 ∧
          '-' ∉ g1.data ∧ '-' ∉ g2.data ∧ '-' ∉ g3.data ∧ '-' ∉ g4.data ∧
          '-' ∉ g5.data ∧
          g1 ++ g2 ++ g3 ++ g4 ++ g5 = "bb9b450bdc414e5eaafd57bcfbf98617" :=
  ⟨by decide, id_to_uuid_canonical_groups _ (by decide) (by decide)⟩

/-- C3 counterexample: the empty string has length 0 ≠ 32, yet `id_to_uuid`
returns the value "----" (all five slices empty) instead of failing; the code
contains no length check and no FormatError. -/
theorem id_to_uuid_no_format_error :
    ("" : String).length ≠ 32 ∧ Whitelist.id_to_uuid "" = "----" :=
  ⟨by decide, by decide⟩

/-- C3 (amended): for every input string whose length is not 32,
`id_to_uuid` does not fail: it still returns the dash-join of the five
(possibly truncated or empty) slices, and the dash-removed concatenation of
the groups is the first 32 characters of the input. -/
theorem id_to_uuid_total_wrong_length (s : String) (h : s.length ≠ 32) :
    ∃ g1 g2 g3 g4 g5 : String,
      Whitelist.id_to_uuid s =
          g1 ++ "-" ++ g2 ++ "-" ++ g3 ++ "-" ++ g4 ++ "-" ++ g5 ∧
        g1 ++ g2 ++ g3 ++ g4 ++ g5 = String.mk (s.data.take 32) :=
  ⟨pySlice s 0 8, pySlice s 8 12, pySlice s 12 16, pySlice s 16 20,
    pySlice s 20 32, id_to_uuid_eq s, slices_concat s⟩

/-- Witness for the amended C3 at a concrete 3-character input. -/
theorem id_to_uuid_total_wrong_length_witness :
    ("abc" : String).length ≠ 32 ∧
      ∃ g1 g2 g3 g4 g5 : String,
        Whitelist.id_to_uuid "abc" =
            g1 ++ "-" ++ g2 ++ "-" ++ g3 ++ "-" ++ g4 ++ "-" ++ g5 ∧
          g1 ++ g2 ++ g3 ++ g4 ++ g5 = String.mk (("abc" : String).data.take 32) :=
  ⟨by decide, id_to_uuid_total_wrong_length "abc" (by decide)⟩

/-- C1: `save()` followed by `load()` on the same backing file reproduces the
same name→uuid mapping.  For every store state whose mapping has unique
names (the dict invariant), parsing the file written by `save` rebuilds
exactly the original entries — same names, same uuids, same order, none lost
or altered (names and uuids appear injected into the key/value types of the
rebuilt dict).  The statement is universal over the mapping, so it covers 0,
1 and many entries. -/
theorem save_load_roundtrip (w : Whitelist)
    (h : (w.usernames.map Prod.fst).Nodup) :
    loadDict (Whitelist.save w).file =
      some (w.usernames.map (fun p => (PyKey.str p.1, Json.str p.2))) := by
  show loadDict (Whitelist.update_container w.usernames) = _
  exact loadDict_update_container w.usernames h

/-- Witness for C1 on a concrete three-entry store. -/
theorem save_load_roundtrip_witness :
    ((([("alice", "uuid-a"), ("bob", "uuid-b"), ("carol", "uuid-c")] :
        List (String × String)).map Prod.fst).Nodup) ∧
    loadDict (Whitelist.save
        ⟨[("alice", "uuid-a"), ("bob", "uuid-b"), ("carol", "uuid-c")],
         Json.null, Json.null⟩).file =
      some ([("alice", "uuid-a"), ("bob", "uuid-b"), ("carol", "uuid-c")].map
        (fun p => (PyKey.str p.1, Json.str p.2))) :=
  ⟨by decide, save_load_roundtrip _ (by decide)⟩

/-- C6 counterexample: the backing content `{}` — an empty JSON object,
which is not an array of name/uuid records — does not make `load()` fail:
Python iterates the empty dict, the comprehension runs zero times, and load
returns an empty mapping. -/
theorem load_empty_object_succeeds : loadDict (Json.obj []) = some [] := rfl

/-- C6 (amended): for every well-formed array of name/uuid records, `load()`
rebuilds the in-memory mapping keyed by name and the last-seen record's uuid
wins for duplicated names; top-level content that is not iterable (a number,
a boolean, or null) makes `load()` fail; but content that is not such an
array is not guaranteed to fail — an empty object yields an empty mapping
(see the counterexample). -/
theorem load_spec (records : List (String × String)) (name : String)
    (n : Int) (b : Bool) :
    (∃ m, loadDict (Json.arr (records.map (fun p => entryJson p.1 p.2))) =
        some m ∧
      dictLookup m (PyKey.str name) =
        (dictLookup records.reverse name).map Json.str) ∧
    loadDict (Json.num n) = none ∧
    loadDict (Json.bool b) = none ∧
    loadDict Json.null = none := by
  refine ⟨⟨_, loadDict_arr records, ?_⟩, rfl, rfl, rfl⟩
  rw [insertFold_lookup]
  have hrev : (records.map (fun p => (PyKey.str p.1, Json.str p.2))).reverse =
      records.reverse.map (fun p => (PyKey.str p.1, Json.str p.2)) := by
    rw [List.map_reverse]
  rw [hrev, dictLookup_map_str]
  cases dictLookup records.reverse name <;> rfl

/-- C4 counterexample: `add(["validuser", "##invalid##"])` with a resolver
failing on "##invalid##" produces an event trace holding only the success
message for "validuser" and the final save — nothing at all is printed for
the failing name (the `except` clause is a bare `pass`), contradicting the
claimed "printed non-fatal notice". -/
theorem add_failure_prints_nothing :
    (Whitelist.add ⟨[], Json.null, Json.null⟩ ["validuser", "##invalid##"]
        (fun t => if t = "validuser"
          then some "bb9b450bdc414e5eaafd57bcfbf98617" else none)).2 =
      [Event.msg "Added validuser to whitelist", Event.save] := by decide

/-- C4 (amended): for every batch of names passed to `add`: a name whose
resolution fails is skipped silently — the event trace is exactly one success
message per resolved name, in batch order, followed by a single save, so no
notice is printed for failing names — and the mapping is unchanged at every
name whose resolution fails; the remaining names of the batch are still
processed: every successfully resolved name ends mapped to the canonicalized
uuid of its compact identifier, overwriting any existing value; and `save()`
is invoked exactly once, after the whole batch (the save is the last
event). -/
theorem add_batch_spec (w : Whitelist) (targets : List String)
    (r : String → Option String) :
    ((Whitelist.add w targets r).2 =
        (targets.filter (fun t => (r t).isSome)).map
          (fun t => Event.msg ("Added " ++ t ++ " to whitelist")) ++
          [Event.save]) ∧
    ((Whitelist.add w targets r).2).count Event.save = 1 ∧
    ((Whitelist.add w targets r).2).getLast? = some Event.save ∧
    (∀ t, r t = none →
      dictLookup (Whitelist.add w targets r).1.usernames t =
        dictLookup w.usernames t) ∧
    (∀ t c, t ∈ targets → r t = some c →
      dictLookup (Whitelist.add w targets r).1.usernames t =
        some (Whitelist.id_to_uuid c)) := by
  have hev : (Whitelist.add w targets r).2 =
      (targets.filter (fun t => (r t).isSome)).map
        (fun t => Event.msg ("Added " ++ t ++ " to whitelist")) ++
        [Event.save] := by
    show (targets.foldl (addStep r) ([], [])).2 ++ [Event.save] = _
    rw [addLoop_snd]
    simp
  have husers : (Whitelist.add w targets r).1.usernames =
      dictUpdate w.usernames (targets.foldl (addStep r) ([], [])).1 := rfl
  refine ⟨hev, ?_, ?_, ?_, ?_⟩
  · rw [hev, List.count_append]
    have hz : ((targets.filter (fun t => (r t).isSome)).map
        (fun t => Event.msg ("Added " ++ t ++ " to whitelist"))).count
          Event.save = 0 := by
      refine List.count_eq_zero.mpr ?_
      intro hmem
      rcases List.mem_map.mp hmem with ⟨t, -, ht⟩
      exact Event.noConfusion ht
    rw [hz]
    rfl
  · rw [hev]
    exact List.getLast?_concat _
  · intro t hrt
    rw [husers]
    show dictLookup ((targets.foldl (addStep r) ([], [])).1.foldl
      (fun acc p => dictInsert acc p.1 p.2) w.usernames) t = _
    rw [insertFold_lookup]
    have hnone : dictLookup (targets.foldl (addStep r) ([], [])).1 t = none := by
      rw [addLoop_fst_lookup, hrt]
      rfl
    have : dictLookup ((targets.foldl (addStep r) ([], [])).1).reverse t =
        none := by
      refine (dictLookup_eq_none_iff _ _).mpr ?_
      intro p hp
      exact (dictLookup_eq_none_iff _ _).mp hnone p (List.mem_reverse.mp hp)
    rw [this]
  · intro t c hmem hrt
    rw [husers]
    show dictLookup ((targets.foldl (addStep r) ([], [])).1.foldl
      (fun acc p => dictInsert acc p.1 p.2) w.usernames) t = _
    rw [insertFold_lookup]
    have hfirst : dictLookup (targets.foldl (addStep r) ([], [])).1 t =
        some (Whitelist.id_to_uuid c) := by
      rw [addLoop_fst_lookup, hrt]
      simp [hmem]
    cases hrev : dictLookup ((targets.foldl (addStep r) ([], [])).1).reverse t
      with
    | none =>
        exfalso
        have hall := (dictLookup_eq_none_iff _ _).mp hrev
        have hnone : dictLookup (targets.foldl (addStep r) ([], [])).1 t =
            none := by
          refine (dictLookup_eq_none_iff _ _).mpr ?_
          intro p hp
          exact hall p (List.mem_reverse.mpr hp)
        rw [hfirst] at hnone
        exact Option.noConfusion hnone
    | some v =>
        have hmem2 : (t, v) ∈ (targets.foldl (addStep r) ([], [])).1 :=
          List.mem_reverse.mp (dictLookup_some_mem _ _ _ hrev)
        obtain ⟨c', hc', hv⟩ := addLoop_fst_mem r targets ([], [])
          (by intro p hp; cases hp) (t, v) hmem2
        rw [hrt] at hc'
        have hv' : v = Whitelist.id_to_uuid c' := hv
        show some v = some (Whitelist.id_to_uuid c)
        rw [hv', ← Option.some.inj hc']

/-- Witness for the amended C4: the failing name is absent and untouched,
the valid name of the same batch is mapped to its canonical uuid. -/
theorem add_batch_spec_witness :
    dictLookup (Whitelist.add ⟨[("other", "kept")], Json.null, Json.null⟩
        ["validuser", "##invalid##"]
        (fun t => if t = "validuser"
          then some "bb9b450bdc414e5eaafd57bcfbf98617" else none)).1.usernames
      "##invalid##" = none ∧
    dictLookup (Whitelist.add ⟨[("other", "kept")], Json.null, Json.null⟩
        ["validuser", "##invalid##"]
        (fun t => if t = "validuser"
          then some "bb9b450bdc414e5eaafd57bcfbf98617" else none)).1.usernames
      "validuser" =
        some (Whitelist.id_to_uuid "bb9b450bdc414e5eaafd57bcfbf98617") := by
  constructor
  · exact ((add_batch_spec ⟨[("other", "kept")], Json.null, Json.null⟩
      ["validuser", "##invalid##"] _).2.2.2.1 "##invalid##"
        (by decide)).trans (by decide)
  · exact (add_batch_spec ⟨[("other", "kept")], Json.null, Json.null⟩
      ["validuser", "##invalid##"] _).2.2.2.2 "validuser"
        "bb9b450bdc414e5eaafd57bcfbf98617" (by decide) (by decide)

/-- C5: for every batch of names passed to `remove` on a store with unique
names: every name of the batch is absent from the mapping afterwards (present
ones are deleted), names outside the batch keep their value, a batch of
entirely absent names leaves the mapping unchanged (ignored without error,
size unchanged), and `save()` is invoked exactly once, after the whole batch
(the save is the last event). -/
theorem remove_batch_spec (w : Whitelist) (targets : List String)
    (h : (w.usernames.map Prod.fst).Nodup) :
    (∀ t ∈ targets,
      dictLookup (Whitelist.remove w targets).1.usernames t = none) ∧
    (∀ t, t ∉ targets →
      dictLookup (Whitelist.remove w targets).1.usernames t =
        dictLookup w.usernames t) ∧
    ((∀ t ∈ targets, dictLookup w.usernames t = none) →
      (Whitelist.remove w targets).1.usernames = w.usernames) ∧
    ((Whitelist.remove w targets).2).count Event.save = 1 ∧
    ((Whitelist.remove w targets).2).getLast? = some Event.save := by
  have husers : (Whitelist.remove w targets).1.usernames =
      (targets.foldl removeStep (w.usernames, [])).1 := rfl
  have hev : (Whitelist.remove w targets).2 =
      (targets.foldl removeStep (w.usernames, [])).2 ++ [Event.save] := rfl
  refine ⟨?_, ?_, ?_, ?_, ?_⟩
  · intro t ht
    rw [husers, removeLoop_fst_lookup _ _ _ h]
    simp [ht]
  · intro t ht
    rw [husers, removeLoop_fst_lookup _ _ _ h]
    simp [ht]
  · intro habs
    rw [husers]
    exact removeLoop_fst_of_absent targets (w.usernames, []) habs
  · rw [hev, List.count_append, removeLoop_snd_count]
    rfl
  · rw [hev]
    exact List.getLast?_concat _

/-- Witness for C5: removing a present name deletes it, an absent name in
the same batch is ignored, an untouched name keeps its value. -/
theorem remove_batch_spec_witness :
    (((([("alice", "uuid-a"), ("bob", "uuid-b")] :
        List (String × String)).map Prod.fst).Nodup)) ∧
    dictLookup (Whitelist.remove
        ⟨[("alice", "uuid-a"), ("bob", "uuid-b")], Json.null, Json.null⟩
        ["alice", "ghost"]).1.usernames "alice" = none ∧
    dictLookup (Whitelist.remove
        ⟨[("alice", "uuid-a"), ("bob", "uuid-b")], Json.null, Json.null⟩
        ["alice", "ghost"]).1.usernames "bob" = some "uuid-b" := by
  refine ⟨by decide, ?_, ?_⟩
  · exact (remove_batch_spec ⟨[("alice", "uuid-a"), ("bob", "uuid-b")],
      Json.null, Json.null⟩ ["alice", "ghost"] (by decide)).1 "alice"
        (by decide)
  · exact ((remove_batch_spec ⟨[("alice", "uuid-a"), ("bob", "uuid-b")],
      Json.null, Json.null⟩ ["alice", "ghost"] (by decide)).2.1 "bob"
        (by decide)).trans (by decide)

/-- C7: for every command outcome and destination behaviour,
`send_command_to_mcrcon` totally returns a string (it is a Lean function, so
no connection-level error escapes the call boundary): an actively refused
connection yields the fixed refusal message, a reset or aborted connection
mid-command yields the fixed termination message, any other connection-level
error yields that error's textual description (`repr`), a refusal escaping
mid-command is caught by the same outer handler, and whenever the connection
was successfully opened it is closed exactly once before control returns
(`with` runs `__exit__` on success and on exception alike; a failed connect
opens no connection, so there is nothing to close). -/
theorem send_command_spec (reprE : PyConnError → String)
    (connect : Option PyConnError) (command : Except PyConnError String) :
    (connect = some PyConnError.refused →
      (send_command_to_mcrcon reprE connect command).1 =
        "The connection could not be made as the server actively refused it.") ∧
    (connect = none →
      (command = Except.error PyConnError.reset ∨
        command = Except.error PyConnError.aborted) →
      (send_command_to_mcrcon reprE connect command).1 =
        "The connection was terminated, the server may have been stopped.") ∧
    (connect = none → command = Except.error PyConnError.refused →
      (send_command_to_mcrcon reprE connect command).1 =
        "The connection could not be made as the server actively refused it.") ∧
    (∀ e, connect = some e → e ≠ PyConnError.refused →
      (send_command_to_mcrcon reprE connect command).1 = reprE e) ∧
    (∀ d, connect = none →
      command = Except.error (PyConnError.otherConn d) →
      (send_command_to_mcrcon reprE connect command).1 =
        reprE (PyConnError.otherConn d)) ∧
    (∀ resp, connect = none → command = Except.ok resp →
      (send_command_to_mcrcon reprE connect command).1 = resp) ∧
    (connect = none → (send_command_to_mcrcon reprE connect command).2 = 1) ∧
    (∀ e, connect = some e →
      (send_command_to_mcrcon reprE connect command).2 = 0) := by
  refine ⟨?_, ?_, ?_, ?_, ?_, ?_, ?_, ?_⟩
  · intro h
    subst h
    rfl
  · intro h hcmd
    subst h
    rcases hcmd with h | h <;> (subst h; rfl)
  · intro h hcmd
    subst h
    subst hcmd
    rfl
  · intro e h hne
    subst h
    cases e with
    | refused => exact absurd rfl hne
    | reset => rfl
    | aborted => rfl
    | otherConn d => rfl
  · intro d h hcmd
    subst h
    subst hcmd
    rfl
  · intro resp h hcmd
    subst h
    subst hcmd
    rfl
  · intro h
    subst h
    cases command with
    | ok resp => rfl
    | error e => cases e <;> rfl
  · intro e h
    subst h
    cases e <;> rfl

/-- Witness for C7 at concrete behaviours: a refused connect yields the
refusal message with no connection opened, a reset mid-command yields the
termination message with the connection closed exactly once. -/
theorem send_command_spec_witness :
    (send_command_to_mcrcon (fun e => "descr") (some PyConnError.refused)
        (Except.ok "resp")).1 =
      "The connection could not be made as the server actively refused it." ∧
    (send_command_to_mcrcon (fun e => "descr") none
        (Except.error PyConnError.reset)).1 =
      "The connection was terminated, the server may have been stopped." ∧
    (send_command_to_mcrcon (fun e => "descr") none
        (Except.error PyConnError.reset)).2 = 1 :=
  ⟨(send_command_spec (fun e => "descr") (some PyConnError.refused)
      (Except.ok "resp")).1 rfl,
   (send_command_spec (fun e => "descr") none
      (Except.error PyConnError.reset)).2.1 rfl (Or.inl rfl),
   (send_command_spec (fun e => "descr") none
      (Except.error PyConnError.reset)).2.2.2.2.2.2.1 rfl⟩

/-- C8: starting from any store satisfying the data-model invariant (names
unique, uuids canonical) and any resolver that only returns well-formed
32-character dash-free compact identifiers, every sequence of add and remove
batches preserves the invariant: afterwards every stored uuid is in
canonical hyphenated 8-4-4-4-12 form — hence 36 characters long — and names
are unique within the store. -/
theorem store_invariant_preserved (w : Whitelist) (ops : List Op)
    (r : String → Option String)
    (hr : ∀ t c, r t = some c → c.length = 32 ∧ '-' ∉ c.data)
    (hw : StoreInvariant w) :
    StoreInvariant (applyOps r w ops) ∧
      ∀ p ∈ (applyOps r w ops).usernames, p.2.length = 36 := by
  have main : StoreInvariant (applyOps r w ops) := by
    induction ops generalizing w with
    | nil => exact hw
    | cons op rest ih =>
        show StoreInvariant (applyOps r (applyOp r w op) rest)
        refine ih _ ?_
        cases op with
        | add ts =>
            constructor
            · show ((dictUpdate w.usernames
                (ts.foldl (addStep r) ([], [])).1).map Prod.fst).Nodup
              exact dictUpdate_keys_nodup _ _ hw.1
            · intro p hp
              have hp' : p ∈ dictUpdate w.usernames
                  (ts.foldl (addStep r) ([], [])).1 := hp
              rcases dictUpdate_mem _ _ _ hp' with hm | hm
              · exact hw.2 p hm
              · obtain ⟨c, hc, hv⟩ := addLoop_fst_mem r ts ([], [])
                  (by intro q hq; cases hq) p hm
                obtain ⟨h32, hdash⟩ := hr p.1 c hc
                rw [hv]
                exact (id_to_uuid_shape c h32 hdash).1
        | remove ts =>
            constructor
            · show (((ts.foldl removeStep (w.usernames, [])).1).map
                Prod.fst).Nodup
              exact removeLoop_fst_keys_nodup ts (w.usernames, []) hw.1
            · intro p hp
              exact hw.2 p (removeLoop_fst_subset ts (w.usernames, []) p hp)
  exact ⟨main, fun p hp => canonicalUuid_length p.2 (main.2 p hp)⟩

/-- Witness for C8: one add batch on an empty store with a constant
well-formed resolver. -/
theorem store_invariant_preserved_witness :
    StoreInvariant (applyOps (fun t => some "bb9b450bdc414e5eaafd57bcfbf98617")
        ⟨[], Json.null, Json.null⟩ [Op.add ["alice"]]) ∧
      ∀ p ∈ (applyOps (fun t => some "bb9b450bdc414e5eaafd57bcfbf98617")
        ⟨[], Json.null, Json.null⟩ [Op.add ["alice"]]).usernames,
        p.2.length = 36 :=
  store_invariant_preserved ⟨[], Json.null, Json.null⟩ [Op.add ["alice"]]
    (fun t => some "bb9b450bdc414e5eaafd57bcfbf98617")
    (fun t c hc => by
      rw [← Option.some.inj hc]
      exact ⟨by decide, by decide⟩)
    ⟨List.nodup_nil, fun p hp => absurd hp (List.not_mem_nil p)⟩

/-- C9: the `rcon remove` sub-command declares its variadic targets argument
without `required`, so click accepts an empty list of target names, and the
command then dispatched to every configured destination is the string
"/whitelist remove " with a trailing space and no names; the `rcon add`
sub-command declares targets `required=True`, so an empty invocation is
rejected. -/
theorem rcon_remove_accepts_empty (dests : List String) :
    clickAccepts rconRemoveTargetsRequired [] = true ∧
    clickAccepts rconAddTargetsRequired [] = false ∧
    rconRemoveCmd [] = "/whitelist remove " ∧
    rconDispatch (rconRemoveCmd []) dests =
      dests.map (fun d => (d, "/whitelist remove ")) ∧
    (rconDispatch (rconRemoveCmd []) dests).length = dests.length := by
  have hcmd : rconRemoveCmd [] = "/whitelist remove " := by decide
  refine ⟨rfl, rfl, hcmd, ?_, by simp [rconDispatch]⟩
  rw [hcmd]
  rfl

/-- C10: `add` and `remove` invoke `save()` unconditionally, exactly once per
batch: the backing file afterwards always equals the serialized current
mapping, even when the batch changed nothing — when every add target failed
resolution, or when no remove target was present, the mapping is unchanged
yet the file is still rewritten. -/
theorem save_unconditional (w : Whitelist) (targets : List String)
    (r : String → Option String) :
    ((Whitelist.add w targets r).2).count Event.save = 1 ∧
    ((Whitelist.remove w targets).2).count Event.save = 1 ∧
    (Whitelist.add w targets r).1.file =
      Whitelist.update_container (Whitelist.add w targets r).1.usernames ∧
    (Whitelist.remove w targets).1.file =
      Whitelist.update_container (Whitelist.remove w targets).1.usernames ∧
    ((∀ t ∈ targets, r t = none) →
      (Whitelist.add w targets r).1.usernames = w.usernames) ∧
    ((∀ t ∈ targets, dictLookup w.usernames t = none) →
      (Whitelist.remove w targets).1.usernames = w.usernames) := by
  refine ⟨?_, ?_, rfl, rfl, ?_, ?_⟩
  · show ((targets.foldl (addStep r) ([], [])).2 ++ [Event.save]).count
      Event.save = 1
    rw [List.count_append, addLoop_snd]
    have hz : ((targets.filter (fun t => (r t).isSome)).map
        (fun t => Event.msg ("Added " ++ t ++ " to whitelist"))).count
          Event.save = 0 := by
      refine List.count_eq_zero.mpr ?_
      intro hmem
      rcases List.mem_map.mp hmem with ⟨t, -, ht⟩
      exact Event.noConfusion ht
    simp [hz]
  · show ((targets.foldl removeStep (w.usernames, [])).2 ++
      [Event.save]).count Event.save = 1
    rw [List.count_append, removeLoop_snd_count]
    rfl
  · intro hall
    show dictUpdate w.usernames (targets.foldl (addStep r) ([], [])).1 =
      w.usernames
    rw [addLoop_fst_of_failures r targets ([], []) hall]
    rfl
  · intro habs
    show (targets.foldl removeStep (w.usernames, [])).1 = w.usernames
    exact removeLoop_fst_of_absent targets (w.usernames, []) habs

/-- Witness for C10: an add batch that fully fails resolution and a remove
batch of an absent name both leave the mapping unchanged while still saving
exactly once. -/
theorem save_unconditional_witness :
    (Whitelist.add ⟨[("alice", "uuid-a")], Json.null, Json.null⟩ ["ghost"]
        (fun t => none)).1.usernames = [("alice", "uuid-a")] ∧
    ((Whitelist.add ⟨[("alice", "uuid-a")], Json.null, Json.null⟩ ["ghost"]
        (fun t => none)).2).count Event.save = 1 ∧
    (Whitelist.remove ⟨[("alice", "uuid-a")], Json.null, Json.null⟩
        ["ghost"]).1.usernames = [("alice", "uuid-a")] ∧
    ((Whitelist.remove ⟨[("alice", "uuid-a")], Json.null, Json.null⟩
        ["ghost"]).2).count Event.save = 1 :=
  ⟨(save_unconditional ⟨[("alice", "uuid-a")], Json.null, Json.null⟩ ["ghost"]
      (fun t => none)).2.2.2.2.1 (fun t ht => rfl),
   (save_unconditional ⟨[("alice", "uuid-a")], Json.null, Json.null⟩ ["ghost"]
      (fun t => none)).1,
   (save_unconditional ⟨[("alice", "uuid-a")], Json.null, Json.null⟩ ["ghost"]
      (fun t => none)).2.2.2.2.2 (fun t ht => by
        have he : t = "ghost" := by simpa using ht
        subst he
        decide),
   (save_unconditional ⟨[("alice", "uuid-a")], Json.null, Json.null⟩ ["ghost"]
      (fun t => none)).2.1⟩
